import Mathlib

set_option maxRecDepth 40000

/-!
Shallow embedding of the rascii image→ASCII conversion core (`src/main.rs`),
covering the constants `GSCALE_10`/`GSCALE_70`, the luminance conversion
`RasciiColor::to_grayscale`, and the grid-building conversion `Rascii::run`.

Machine-arithmetic conventions:
* `u8` pixel channels are modelled by reducing reads modulo 256;
* the `usize` fold accumulators wrap modulo `2^64` (release-mode Rust);
* a Rust panic (out-of-bounds pixel or character access, integer division by
  zero) is modelled by `Except.error` with the panic kind;
* the two `f64` ramp-index computations `(x as f64 / 255.0) * 9.0` and
  `(x as f64 / 255.0) * 67.0` (followed by `as usize` truncation) are modelled
  bit-exactly by dyadic rational arithmetic over `ℕ` (`f64idx` below): `x as
  f64` is exact, the division and the multiplication each perform one IEEE-754
  binary64 round-to-nearest-even, and no subnormal, infinite or NaN value can
  occur in the range used;
* the gamma-corrected luminance formula in `RasciiColor::to_grayscale` uses the
  transcendental `f64::powf` (libm, not bit-exactly specified), so the value of
  the expression `116.0 * y.powf(1.0/3.0) - 16.0` is kept as a parameter
  `F : ℕ → ℕ → ℕ → ℚ` (every finite `f64` is rational); the final `as u8`
  saturating cast is modelled exactly by `f64toU8`.
-/

/-- `const GSCALE_10: &[char]` — the 10-character ramp. -/
def GSCALE_10 : List Char := [' ', '.', ':', '-', '=', '+', '*', '#', '%', '@']

/-- `const GSCALE_70: &str` — the long ramp string (68 characters; the braces
are written with `\x7b`/`\x7d` escapes). -/
def GSCALE_70 : String :=
  " .\"`^\",:;Il!i~+_-?][\x7d\x7b1)(|\\/tfjrxnuvczXYUJCLQ0OZmwqpdbkhao*#MW&8%B@$"

/-- `GSCALE_70.chars().collect::<Vec<char>>()` as performed inside `run`. -/
def gscale70 : List Char := GSCALE_70.toList

/-- Kinds of Rust panic that `Rascii::run` can hit: an out-of-bounds pixel or
character index, or an integer division by zero. -/
inductive PanicKind where
  | outOfBounds : PanicKind
  | divByZero : PanicKind
deriving DecidableEq

/-- `enum RasciiColor { RGB(u8, u8, u8), Grayscale(u8) }`. -/
inductive RasciiColor where
  | RGB : ℕ → ℕ → ℕ → RasciiColor
  | Grayscale : ℕ → RasciiColor
deriving DecidableEq

/-- Rust `f64 as u8` saturating cast: NaN and values ≤ 0 go to 0, values ≥ 255
go to 255, anything else is truncated toward zero (for the nonnegative range
this is the floor). NaN cannot occur in `to_grayscale` (its argument to the
cube root is a sum of nonnegative products), so a rational argument suffices. -/
def f64toU8 (q : ℚ) : ℕ :=
  if q ≤ 0 then 0 else if 255 ≤ q then 255 else ⌊q⌋.toNat

/-- `RasciiColor::to_grayscale`. For `RGB r g b` the method computes
`(116.0 * y.powf(1.0/3.0) - 16.0) as u8` with
`y = 0.2126*r^2.2 + 0.7152*g^2.2 + 0.0722*b^2.2` in `f64`; the value of that
`f64` expression before the cast is the parameter `F r g b`. For
`Grayscale l` the stored scalar is returned unchanged. -/
def toGrayscale (F : ℕ → ℕ → ℕ → ℚ) : RasciiColor → ℕ
  | .RGB r g b => f64toU8 (F r g b)
  | .Grayscale l => l

/-- Round-to-nearest-even division `a / b` on naturals: the IEEE-754 default
rounding applied to a nonnegative quotient. -/
def rneDiv (a b : ℕ) : ℕ :=
  let q := a / b
  let r := a % b
  if 2 * r < b then q else if b < 2 * r then q + 1 else if q % 2 = 0 then q else q + 1

/-- For `1 ≤ v ≤ 255`, the unique `d ≤ 8` with `2^(-d) ≤ v/255 < 2^(1-d)`,
the binade of the `f64` quotient `v as f64 / 255.0`. -/
def dOf (v : ℕ) : ℕ :=
  (List.range 9).foldl (fun acc d => if 255 ≤ v * 2 ^ d ∧ v * 2 ^ d < 510 then d else acc) 0

/-- For `p` in the range produced below, the unique `t` with
`2^(52+t) ≤ p < 2^(53+t)`: the number of low bits the second rounding drops. -/
def tOf (p : ℕ) : ℕ :=
  (List.range 9).foldl (fun acc t => if 2 ^ (52 + t) ≤ p ∧ p < 2 ^ (53 + t) then t else acc) 0

/-- Bit-exact model of `((v as f64 / 255.0) * (mult as f64)) as usize` for
`v ≤ 255` and small `mult` (9 or 67 in the program):
`v as f64` is exact; the division rounds `v/255` to the 53-bit significand
`m1/2^(52+d)`; the multiplication rounds `m1*mult/2^(52+d)` to 53 bits again by
dropping `t` low bits with round-to-nearest-even; `as usize` truncates toward
zero. All values are normal and finite, so this is the full IEEE semantics. -/
def f64idx (v mult : ℕ) : ℕ :=
  if v = 0 then 0
  else
    let d := dOf v
    let m1 := rneDiv (v * 2 ^ (52 + d)) 255
    let p := m1 * mult
    let t := tOf p
    rneDiv p (2 ^ t) * 2 ^ t / 2 ^ (52 + d)

/-- The decoded image: `image::RgbImage` with `u8` channels, modelled as
dimensions plus a pixel function whose channels are read modulo 256. -/
structure Image where
  width : ℕ
  height : ℕ
  pix : ℕ → ℕ → ℕ × ℕ × ℕ

/-- `self.image.get_pixel(x, y).data`: panics when the coordinates are outside
the buffer, otherwise yields the `u8` channel triple. -/
def getPixel (img : Image) (x y : ℕ) : Except PanicKind (ℕ × ℕ × ℕ) :=
  if x < img.width ∧ y < img.height then
    .ok ((img.pix x y).1 % 256, (img.pix x y).2.1 % 256, (img.pix x y).2.2 % 256)
  else .error .outOfBounds

/-- Run a fallible loop body over a list in order, collecting one result per
iteration and aborting at the first panic — the shape of every `for` loop in
`Rascii::run`. -/
def mapE {α β : Type} (f : α → Except PanicKind β) : List α → Except PanicKind (List β)
  | [] => .ok []
  | a :: l =>
    match f a with
    | .error e => .error e
    | .ok b =>
      match mapE f l with
      | .error e => .error e
      | .ok bs => .ok (b :: bs)

/-- Body of the per-pixel sampling loop: read the pixel and store either the
raw RGB triple (color mode) or its `to_grayscale` value (grayscale mode). -/
def samplePixel (F : ℕ → ℕ → ℕ → ℚ) (img : Image) (color : Bool) (x y : ℕ) :
    Except PanicKind RasciiColor :=
  match getPixel img x y with
  | .error e => .error e
  | .ok (r, g, b) =>
    if color then .ok (.RGB r g b)
    else .ok (.Grayscale (toGrayscale F (.RGB r g b)))

/-- The pixel offsets visited by the nested `for px in 0..tile_w { for py in
0..tile_h { … } }` loops, in loop order (`px` outer, `py` inner). -/
def tileOffsets (tw th : ℕ) : List (ℕ × ℕ) :=
  (List.range tw).product (List.range th)

/-- `tile_pixel_data` for the tile at grid position `(tx, ty)`: one sample per
visited offset `(px, py)`, read at `(px + tx*tile_w, py + ty*tile_h)`. -/
def tileData (F : ℕ → ℕ → ℕ → ℚ) (img : Image) (color : Bool) (tw th tx ty : ℕ) :
    Except PanicKind (List RasciiColor) :=
  mapE (fun p => samplePixel F img color (p.1 + tx * tw) (p.2 + ty * th)) (tileOffsets tw th)

/-- The match arm `RasciiColor::RGB(r,_,_) => *r as usize, _ => 0` of the red
fold. -/
def chanR : RasciiColor → ℕ
  | .RGB r _ _ => r
  | _ => 0

/-- Green analogue of `chanR`. -/
def chanG : RasciiColor → ℕ
  | .RGB _ g _ => g
  | _ => 0

/-- Blue analogue of `chanR`. -/
def chanB : RasciiColor → ℕ
  | .RGB _ _ b => b
  | _ => 0

/-- The match arm `RasciiColor::Grayscale(x) => *x as usize, _ => 0` of the
grayscale fold, also used for `let x = match avg { Grayscale(x) => x, _ => 0 }`. -/
def chanGray : RasciiColor → ℕ
  | .Grayscale x => x
  | _ => 0

/-- `tile_pixel_data.iter().fold(0usize, |sum, x| sum + f x)`: the channel sum
accumulated in a `usize` (64-bit, wrapping modulo `2^64` in release mode). -/
def foldUsize (f : RasciiColor → ℕ) (l : List RasciiColor) : ℕ :=
  l.foldl (fun s x => (s + f x) % 2 ^ 64) 0

/-- The depth-dispatched character lookup performed in both branches of `run`:
`if depth > 10` index into the collected `GSCALE_70` characters with
`(x/255)*67`, else index into `GSCALE_10` with `(x/255)*9`; a Rust slice index
out of bounds would panic. -/
def selectChar (depth x : ℕ) : Except PanicKind Char :=
  if 10 < depth then
    match gscale70.get? (f64idx x 67) with
    | some c => .ok c
    | none => .error .outOfBounds
  else
    match GSCALE_10.get? (f64idx x 9) with
    | some c => .ok c
    | none => .error .outOfBounds

/-- One iteration of the `tx` loop of `Rascii::run`: gather `tile_pixel_data`,
then in the `if self.color` branch average the three channels (each
`sum / len`, dividing by zero when the tile is empty, the quotient cast
`as u8`) and pick the ramp character from `avg.to_grayscale()`; in the `else`
branch average the grayscale scalars and pick the character from the stored
scalar (`let x = match avg { Grayscale(x) => x, _ => 0 }`). The `avg` binding
of the source is inlined at both of its use sites, and the division-by-zero
panic shared by both branches is hoisted in front of the branch. Yields the
pushed `(ascii_char, avg)` cell. -/
def buildCell (F : ℕ → ℕ → ℕ → ℚ) (img : Image) (color : Bool)
    (depth tw th tx ty : ℕ) : Except PanicKind (Char × RasciiColor) :=
  match tileData F img color tw th tx ty with
  | .error e => .error e
  | .ok data =>
    if data.length = 0 then .error .divByZero
    else if color then
      match selectChar depth (toGrayscale F (.RGB
          (foldUsize chanR data / data.length % 256)
          (foldUsize chanG data / data.length % 256)
          (foldUsize chanB data / data.length % 256))) with
      | .error e => .error e
      | .ok c => .ok (c, .RGB (foldUsize chanR data / data.length % 256)
          (foldUsize chanG data / data.length % 256)
          (foldUsize chanB data / data.length % 256))
    else
      match selectChar depth (chanGray (.Grayscale
          (foldUsize chanGray data / data.length % 256))) with
      | .error e => .error e
      | .ok c => .ok (c, .Grayscale (foldUsize chanGray data / data.length % 256))

/-- `type RasciiOutput = Vec<Vec<(char, RasciiColor)>>`. -/
abbrev RasciiOutput : Type := List (List (Char × RasciiColor))

/-- `Rascii::run` on an image with target dimensions `dim = (cols, rows)`
(Rust `self.dim.0` is `dim.1`, `self.dim.1` is `dim.2`): compute
`tile_w = width / cols` and `tile_h = height / rows` (u32 division, panicking
on a zero divisor), then loop `ty in 1..rows-1` and `tx in 1..cols-1`, pushing
one cell per tile and one row per `ty`. With `cols, rows ≥ 1` the u32
subtractions cannot wrap, so `ℕ` subtraction is exact here. -/
def runRascii (F : ℕ → ℕ → ℕ → ℚ) (img : Image) (dim : ℕ × ℕ) (color : Bool)
    (depth : ℕ) : Except PanicKind RasciiOutput :=
  if dim.1 = 0 ∨ dim.2 = 0 then .error .divByZero
  else
    let tw := img.width / dim.1
    let th := img.height / dim.2
    mapE (fun ty => mapE (fun tx => buildCell F img color depth tw th tx ty)
        (List.range' 1 (dim.1 - 1 - 1)))
      (List.range' 1 (dim.2 - 1 - 1))

/-- `struct Rascii` — the state `run(&mut self)` borrows. -/
structure Rascii where
  image : Image
  dim : ℕ × ℕ
  color : Bool
  depth : ℕ
  braille : Bool

/-- `Rascii::run(&mut self)` as a state-passing function: the returned state is
the received one, because the body of `run` reads `self.image`, `self.dim`,
`self.color` and `self.depth` but assigns no field of `self`. -/
def runR (F : ℕ → ℕ → ℕ → ℚ) (s : Rascii) : Except PanicKind RasciiOutput × Rascii :=
  (runRascii F s.image s.dim s.color s.depth, s)

/-- A uniform solid-red 10×10 buffer (the §8 color-mode scenario). -/
def red10 : Image := ⟨10, 10, fun _ _ => (255, 0, 0)⟩

/-- A uniform black 4×4 buffer. -/
def img4 : Image := ⟨4, 4, fun _ _ => (0, 0, 0)⟩

/-- A uniform gray 5×5 buffer. -/
def img5 : Image := ⟨5, 5, fun _ _ => (100, 100, 100)⟩

/-- A concrete stand-in for the luminance float expression, used to instantiate
`F` in closed statements. -/
def Fzero : ℕ → ℕ → ℕ → ℚ := fun _ _ _ => 0

/-! ### Helper lemmas -/

/-- On every representable input `v ≤ 255`, the bit-exact `f64` model of
`((v as f64 / 255.0) * 9.0) as usize` agrees with exact integer arithmetic
`⌊v·9/255⌋` (exhaustive check over the 256 inputs). -/
theorem f64idx_mul9 : ∀ v < 256, f64idx v 9 = v * 9 / 255 := by decide

/-- Same exhaustive agreement for the 67-multiplier index. -/
theorem f64idx_mul67 : ∀ v < 256, f64idx v 67 = v * 67 / 255 := by decide

theorem gscale70_length : gscale70.length = 68 := by decide

theorem mapE_length {α β : Type} (f : α → Except PanicKind β) :
    ∀ {l : List α} {l' : List β}, mapE f l = .ok l' → l'.length = l.length := by
  intro l
  induction l with
  | nil =>
    intro l' h
    simp only [mapE] at h
    cases h
    rfl
  | cons a t ih =>
    intro l' h
    simp only [mapE] at h
    cases hfa : f a with
    | error e => rw [hfa] at h; cases h
    | ok b =>
      rw [hfa] at h
      cases ht : mapE f t with
      | error e => rw [ht] at h; cases h
      | ok bs =>
        rw [ht] at h
        cases h
        simp [ih ht]

theorem mapE_ok {α β : Type} (f : α → Except PanicKind β) :
    ∀ {l : List α}, (∀ a ∈ l, ∃ b, f a = .ok b) → ∃ l', mapE f l = .ok l' := by
  intro l
  induction l with
  | nil => intro _; exact ⟨[], rfl⟩
  | cons a t ih =>
    intro h
    obtain ⟨b, hb⟩ := h a (by simp)
    obtain ⟨bs, hbs⟩ := ih (fun x hx => h x (by simp [hx]))
    exact ⟨b :: bs, by simp only [mapE]; rw [hb, hbs]⟩

theorem mapE_mem {α β : Type} (f : α → Except PanicKind β) :
    ∀ {l : List α} {l' : List β}, mapE f l = .ok l' →
      ∀ b ∈ l', ∃ a ∈ l, f a = .ok b := by
  intro l
  induction l with
  | nil =>
    intro l' h b hb
    simp only [mapE] at h
    cases h
    simp at hb
  | cons a t ih =>
    intro l' h b hb
    simp only [mapE] at h
    cases hfa : f a with
    | error e => rw [hfa] at h; cases h
    | ok b0 =>
      rw [hfa] at h
      cases ht : mapE f t with
      | error e => rw [ht] at h; cases h
      | ok bs =>
        rw [ht] at h
        cases h
        rcases List.mem_cons.1 hb with hb | hb
        · exact ⟨a, by simp, hb ▸ hfa⟩
        · obtain ⟨x, hx, hfx⟩ := ih ht b hb
          exact ⟨x, by simp [hx], hfx⟩

theorem f64toU8_le (q : ℚ) : f64toU8 q ≤ 255 := by
  unfold f64toU8
  split
  · exact Nat.zero_le _
  · split
    · exact le_refl _
    · rename_i h1 h2
      have hq : q < 255 := lt_of_not_le h2
      have : ⌊q⌋ < 255 := by
        have := Int.floor_le q
        exact_mod_cast lt_of_le_of_lt this hq
      omega

theorem sum_le_mul_of_le {l : List ℕ} {n : ℕ} (h : ∀ x ∈ l, x ≤ n) :
    l.sum ≤ l.length * n := by
  induction l with
  | nil => simp
  | cons a t ih =>
    simp only [List.sum_cons, List.length_cons]
    have ha := h a (by simp)
    have ht := ih (fun x hx => h x (by simp [hx]))
    calc a + t.sum ≤ n + t.length * n := by omega
    _ = (t.length + 1) * n := by ring

theorem foldl_wrap_eq (f : RasciiColor → ℕ) :
    ∀ (l : List RasciiColor) (s : ℕ), s + (l.map f).sum < 2 ^ 64 →
      l.foldl (fun s x => (s + f x) % 2 ^ 64) s = s + (l.map f).sum := by
  intro l
  induction l with
  | nil => intro s _; simp
  | cons a t ih =>
    intro s h
    simp only [List.map_cons, List.sum_cons] at h
    simp only [List.foldl_cons, List.map_cons, List.sum_cons]
    rw [Nat.mod_eq_of_lt (by omega)]
    rw [ih (s + f a) (by omega)]
    omega

/-- The `usize` accumulation never wraps for any tile of realistic size: with
samples bounded by 255 and at most `2^48` of them, the wrapping fold computes
the exact sum. -/
theorem foldUsize_eq_sum {f : RasciiColor → ℕ} {l : List RasciiColor}
    (hb : ∀ x ∈ l, f x ≤ 255) (hl : l.length ≤ 2 ^ 48) :
    foldUsize f l = (l.map f).sum := by
  have hsum : (l.map f).sum ≤ l.length * 255 := by
    have := sum_le_mul_of_le (l := l.map f) (n := 255)
      (fun x hx => by obtain ⟨a, ha, rfl⟩ := List.mem_map.1 hx; exact hb a ha)
    simpa using this
  have hbig : l.length * 255 < 2 ^ 64 := by
    calc l.length * 255 ≤ 2 ^ 48 * 255 := Nat.mul_le_mul_right _ hl
    _ < 2 ^ 64 := by norm_num
  have := foldl_wrap_eq f l 0 (by omega)
  simpa [foldUsize] using this

theorem mean_le_255 {l : List ℕ} (hb : ∀ x ∈ l, x ≤ 255) (hpos : 0 < l.length) :
    l.sum / l.length ≤ 255 := by
  have hsum : l.sum ≤ l.length * 255 := sum_le_mul_of_le hb
  calc l.sum / l.length ≤ l.length * 255 / l.length := Nat.div_le_div_right hsum
  _ = 255 := Nat.mul_div_cancel_left _ hpos

theorem getPixel_ok_of_lt {img : Image} {x y : ℕ} (hx : x < img.width)
    (hy : y < img.height) : ∃ r g b, getPixel img x y = .ok (r, g, b) :=
  ⟨(img.pix x y).1 % 256, (img.pix x y).2.1 % 256, (img.pix x y).2.2 % 256, by
    unfold getPixel
    rw [if_pos ⟨hx, hy⟩]⟩

theorem getPixel_bounds {img : Image} {x y r g b : ℕ}
    (h : getPixel img x y = .ok (r, g, b)) : r ≤ 255 ∧ g ≤ 255 ∧ b ≤ 255 := by
  unfold getPixel at h
  split at h
  · injection h with h
    obtain ⟨h1, h2, h3⟩ := Prod.mk.injEq .. ▸ h
    have m1 := Nat.mod_lt (img.pix x y).1 (show 0 < 256 by norm_num)
    have m2 := Nat.mod_lt (img.pix x y).2.1 (show 0 < 256 by norm_num)
    have m3 := Nat.mod_lt (img.pix x y).2.2 (show 0 < 256 by norm_num)
    omega
  · cases h

theorem samplePixel_ok {F : ℕ → ℕ → ℕ → ℚ} {img : Image} {color : Bool} {x y : ℕ}
    (hx : x < img.width) (hy : y < img.height) :
    ∃ c, samplePixel F img color x y = .ok c := by
  obtain ⟨r, g, b, hp⟩ := @getPixel_ok_of_lt img x y hx hy
  unfold samplePixel
  rw [hp]
  cases color <;> exact ⟨_, rfl⟩

theorem samplePixel_shape {F : ℕ → ℕ → ℕ → ℚ} {img : Image} {color : Bool}
    {x y : ℕ} {c : RasciiColor} (h : samplePixel F img color x y = .ok c) :
    chanR c ≤ 255 ∧ chanG c ≤ 255 ∧ chanB c ≤ 255 ∧ chanGray c ≤ 255 ∧
      (color = true → ∃ r g b, c = .RGB r g b) ∧
      (color = false → ∃ l, c = .Grayscale l) := by
  unfold samplePixel at h
  cases hp : getPixel img x y with
  | error e => rw [hp] at h; cases h
  | ok t =>
    obtain ⟨r, g, b⟩ := t
    rw [hp] at h
    have hb := getPixel_bounds hp
    cases color with
    | false =>
      simp only [Bool.false_eq_true, if_false] at h
      cases h
      refine ⟨by simp [chanR], by simp [chanG], by simp [chanB], ?_, by simp, ?_⟩
      · simpa [chanGray, toGrayscale] using f64toU8_le (F r g b)
      · exact fun _ => ⟨_, rfl⟩
    | true =>
      simp only [if_true] at h
      cases h
      exact ⟨by simpa [chanR] using hb.1, by simpa [chanG] using hb.2.1,
        by simpa [chanB] using hb.2.2, by simp [chanGray],
        fun _ => ⟨r, g, b, rfl⟩, by simp⟩

theorem selectChar_ok (depth x : ℕ) (hx : x ≤ 255) :
    ∃ c, selectChar depth x = .ok c := by
  have h9 : f64idx x 9 = x * 9 / 255 := f64idx_mul9 x (by omega)
  have h67 : f64idx x 67 = x * 67 / 255 := f64idx_mul67 x (by omega)
  unfold selectChar
  split
  · have hlt : f64idx x 67 < gscale70.length := by
      rw [h67, gscale70_length]; omega
    obtain ⟨c, hc⟩ : ∃ c, gscale70.get? (f64idx x 67) = some c :=
      ⟨_, List.get?_eq_get hlt⟩
    rw [hc]
    exact ⟨c, rfl⟩
  · have hlt : f64idx x 9 < GSCALE_10.length := by
      rw [h9, show GSCALE_10.length = 10 from rfl]; omega
    obtain ⟨c, hc⟩ : ∃ c, GSCALE_10.get? (f64idx x 9) = some c :=
      ⟨_, List.get?_eq_get hlt⟩
    rw [hc]
    exact ⟨c, rfl⟩

theorem selectChar_mem {depth x : ℕ} {c : Char} (h : selectChar depth x = .ok c) :
    c ∈ (if 10 < depth then gscale70 else GSCALE_10) := by
  unfold selectChar at h
  by_cases hd : 10 < depth
  · rw [if_pos hd] at h ⊢
    cases hm : gscale70.get? (f64idx x 67) with
    | none => rw [hm] at h; cases h
    | some c0 => rw [hm] at h; cases h; exact List.get?_mem hm
  · rw [if_neg hd] at h ⊢
    cases hm : GSCALE_10.get? (f64idx x 9) with
    | none => rw [hm] at h; cases h
    | some c0 => rw [hm] at h; cases h; exact List.get?_mem hm

theorem tileOffsets_length (tw th : ℕ) : (tileOffsets tw th).length = tw * th := by
  have h := List.length_product (List.range tw) (List.range th)
  simp only [List.length_range] at h
  exact h

theorem tileOffsets_mem {tw th px py : ℕ} (h : (px, py) ∈ tileOffsets tw th) :
    px < tw ∧ py < th := by
  have := List.pair_mem_product.1 h
  simpa [List.mem_range] using this

theorem tileData_ok {F : ℕ → ℕ → ℕ → ℚ} {img : Image} {color : Bool} {tw th tx ty : ℕ}
    (hb : ∀ px py, px < tw → py < th →
      px + tx * tw < img.width ∧ py + ty * th < img.height) :
    ∃ data, tileData F img color tw th tx ty = .ok data ∧ data.length = tw * th := by
  obtain ⟨data, hd⟩ := mapE_ok
    (fun p => samplePixel F img color (p.1 + tx * tw) (p.2 + ty * th))
    (l := tileOffsets tw th) (fun p hp => by
      obtain ⟨hp1, hp2⟩ := @tileOffsets_mem tw th p.1 p.2 (by simpa using hp)
      obtain ⟨h1, h2⟩ := hb p.1 p.2 hp1 hp2
      exact @samplePixel_ok F img color _ _ h1 h2)
  exact ⟨data, hd, (mapE_length _ hd).trans (tileOffsets_length tw th)⟩

theorem tileData_shape {F : ℕ → ℕ → ℕ → ℚ} {img : Image} {color : Bool}
    {tw th tx ty : ℕ} {data : List RasciiColor}
    (h : tileData F img color tw th tx ty = .ok data) :
    ∀ c ∈ data, chanR c ≤ 255 ∧ chanG c ≤ 255 ∧ chanB c ≤ 255 ∧ chanGray c ≤ 255 ∧
      (color = true → ∃ r g b, c = .RGB r g b) ∧
      (color = false → ∃ l, c = .Grayscale l) := by
  intro c hc
  obtain ⟨a, _, hfa⟩ := mapE_mem _ h c hc
  exact samplePixel_shape hfa

theorem toGrayscale_RGB_le (F : ℕ → ℕ → ℕ → ℚ) (r g b : ℕ) :
    toGrayscale F (.RGB r g b) ≤ 255 :=
  f64toU8_le (F r g b)

theorem buildCell_ok {F : ℕ → ℕ → ℕ → ℚ} {img : Image} {color : Bool}
    {depth tw th tx ty : ℕ}
    (hb : ∀ px py, px < tw → py < th →
      px + tx * tw < img.width ∧ py + ty * th < img.height)
    (hpos : 0 < tw * th) :
    ∃ cell, buildCell F img color depth tw th tx ty = .ok cell := by
  obtain ⟨data, hd, hlen⟩ := @tileData_ok F img color tw th tx ty hb
  unfold buildCell
  rw [hd]
  split
  · rename_i e heq; cases heq
  · rename_i data2 heq
    injection heq with heq
    subst heq
    rw [if_neg (by omega)]
    cases color with
    | true =>
      rw [if_pos rfl]
      obtain ⟨c, hc⟩ := selectChar_ok depth _ (toGrayscale_RGB_le F _ _ _)
      rw [hc]
      exact ⟨_, rfl⟩
    | false =>
      rw [if_neg (by simp)]
      have hgray : chanGray (RasciiColor.Grayscale
          (foldUsize chanGray data / data.length % 256)) ≤ 255 := by
        simp only [chanGray]
        exact Nat.le_of_lt_succ (Nat.mod_lt _ (by norm_num))
      obtain ⟨c, hc⟩ := selectChar_ok depth _ hgray
      rw [hc]
      exact ⟨_, rfl⟩

theorem buildCell_inv {F : ℕ → ℕ → ℕ → ℚ} {img : Image} {color : Bool}
    {depth tw th tx ty : ℕ} {c : Char} {avg : RasciiColor}
    (h : buildCell F img color depth tw th tx ty = .ok (c, avg)) :
    (color = true → ∃ r g b, avg = .RGB r g b ∧ r ≤ 255 ∧ g ≤ 255 ∧ b ≤ 255) ∧
    (color = false → ∃ l, avg = .Grayscale l ∧ l ≤ 255) ∧
    c ∈ (if 10 < depth then gscale70 else GSCALE_10) := by
  unfold buildCell at h
  cases hd : tileData F img color tw th tx ty with
  | error e => rw [hd] at h; cases h
  | ok data =>
    simp only [hd] at h
    split at h
    · cases h
    · have h256 : 0 < 256 := by norm_num
      cases color with
      | true =>
        rw [if_pos rfl] at h
        cases hsc : selectChar depth (toGrayscale F (.RGB
            (foldUsize chanR data / data.length % 256)
            (foldUsize chanG data / data.length % 256)
            (foldUsize chanB data / data.length % 256))) with
        | error e => rw [hsc] at h; cases h
        | ok c0 =>
          rw [hsc] at h
          cases h
          refine ⟨fun _ => ⟨_, _, _, rfl, ?_, ?_, ?_⟩, by simp, selectChar_mem hsc⟩
          · exact Nat.le_of_lt_succ (Nat.mod_lt _ h256)
          · exact Nat.le_of_lt_succ (Nat.mod_lt _ h256)
          · exact Nat.le_of_lt_succ (Nat.mod_lt _ h256)
      | false =>
        rw [if_neg (by simp)] at h
        cases hsc : selectChar depth (chanGray (.Grayscale
            (foldUsize chanGray data / data.length % 256))) with
        | error e => rw [hsc] at h; cases h
        | ok c0 =>
          rw [hsc] at h
          cases h
          exact ⟨by simp, fun _ => ⟨_, rfl,
            Nat.le_of_lt_succ (Nat.mod_lt _ h256)⟩, selectChar_mem hsc⟩

/-- In-bounds arithmetic for the trimmed tile grid: a pixel of the tile at
grid column `tx ≤ cols - 2` stays strictly inside the buffer width. -/
theorem tile_inbounds {W cols tx px : ℕ} (hc1 : 1 ≤ tx) (hc2 : cols ≤ W)
    (htx : tx ≤ cols - 2) (hpx : px < W / cols) : px + tx * (W / cols) < W := by
  have hc3 : 3 ≤ cols := by omega
  have htw : 1 ≤ W / cols := (Nat.one_le_div_iff (by omega)).2 hc2
  have h4 : cols * (W / cols) ≤ W := by
    rw [mul_comm]
    exact Nat.div_mul_le_self W cols
  calc px + tx * (W / cols)
      < W / cols + tx * (W / cols) := by omega
    _ = (tx + 1) * (W / cols) := by ring
    _ ≤ (cols - 1) * (W / cols) := Nat.mul_le_mul_right _ (by omega)
    _ = cols * (W / cols) - 1 * (W / cols) := Nat.sub_mul cols 1 (W / cols)
    _ = cols * (W / cols) - W / cols := by rw [one_mul]
    _ < W := by omega

theorem runRascii_eq (F : ℕ → ℕ → ℕ → ℚ) (img : Image) (cols rows : ℕ)
    (color : Bool) (depth : ℕ) (h1 : ¬((cols, rows).1 = 0 ∨ (cols, rows).2 = 0)) :
    runRascii F img (cols, rows) color depth =
      mapE (fun ty => mapE (fun tx => buildCell F img color depth
          (img.width / cols) (img.height / rows) tx ty)
        (List.range' 1 (cols - 1 - 1)))
      (List.range' 1 (rows - 1 - 1)) := by
  unfold runRascii
  rw [if_neg h1]

theorem runRascii_ok_shape {F : ℕ → ℕ → ℕ → ℚ} {img : Image} {cols rows : ℕ}
    {color : Bool} {depth : ℕ}
    (hc1 : 1 ≤ cols) (hc2 : cols ≤ img.width) (hr1 : 1 ≤ rows) (hr2 : rows ≤ img.height) :
    ∃ out, runRascii F img (cols, rows) color depth = .ok out ∧
      out.length = rows - 2 ∧ ∀ row ∈ out, row.length = cols - 2 := by
  rw [runRascii_eq F img cols rows color depth (by simp; omega)]
  have hbody : ∀ ty ∈ List.range' 1 (rows - 1 - 1), ∃ row,
      mapE (fun tx => buildCell F img color depth
        (img.width / cols) (img.height / rows) tx ty)
      (List.range' 1 (cols - 1 - 1)) = .ok row := by
    intro ty hty
    apply mapE_ok
    intro tx htx
    have hty2 := List.mem_range'_1.1 hty
    have htx2 := List.mem_range'_1.1 htx
    apply buildCell_ok
    · intro px py hpx hpy
      constructor
      · exact tile_inbounds (by omega) hc2 (by omega) hpx
      · exact tile_inbounds (by omega) hr2 (by omega) hpy
    · have h1 : 1 ≤ img.width / cols := (Nat.one_le_div_iff (by omega)).2 hc2
      have h2 : 1 ≤ img.height / rows := (Nat.one_le_div_iff (by omega)).2 hr2
      exact Nat.mul_pos h1 h2
  obtain ⟨out, hout⟩ := mapE_ok _ hbody
  refine ⟨out, hout, ?_, ?_⟩
  · rw [mapE_length _ hout, List.length_range']
    omega
  · intro row hrow
    obtain ⟨ty, hty, hrow_eq⟩ := mapE_mem _ hout row hrow
    rw [mapE_length _ hrow_eq, List.length_range']
    omega

theorem buildCell_color_mean {F : ℕ → ℕ → ℕ → ℚ} {img : Image}
    {depth tw th tx ty : ℕ} {data : List RasciiColor}
    (hd : tileData F img true tw th tx ty = .ok data)
    (h0 : data.length ≠ 0) (hlen : data.length ≤ 2 ^ 48) :
    ∃ c, buildCell F img true depth tw th tx ty = .ok (c, .RGB
        ((data.map chanR).sum / data.length) ((data.map chanG).sum / data.length)
        ((data.map chanB).sum / data.length)) ∧
      selectChar depth (toGrayscale F (.RGB
        ((data.map chanR).sum / data.length) ((data.map chanG).sum / data.length)
        ((data.map chanB).sum / data.length))) = .ok c := by
  have hsh := tileData_shape hd
  have hR : foldUsize chanR data = (data.map chanR).sum :=
    foldUsize_eq_sum (fun x hx => (hsh x hx).1) hlen
  have hG : foldUsize chanG data = (data.map chanG).sum :=
    foldUsize_eq_sum (fun x hx => (hsh x hx).2.1) hlen
  have hB : foldUsize chanB data = (data.map chanB).sum :=
    foldUsize_eq_sum (fun x hx => (hsh x hx).2.2.1) hlen
  have hpos : 0 < data.length := Nat.pos_of_ne_zero h0
  have hmR : (data.map chanR).sum / data.length ≤ 255 := by
    have := mean_le_255 (l := data.map chanR) (fun x hx => by
      obtain ⟨a, ha, rfl⟩ := List.mem_map.1 hx
      exact (hsh a ha).1) (by simpa using hpos)
    simpa using this
  have hmG : (data.map chanG).sum / data.length ≤ 255 := by
    have := mean_le_255 (l := data.map chanG) (fun x hx => by
      obtain ⟨a, ha, rfl⟩ := List.mem_map.1 hx
      exact (hsh a ha).2.1) (by simpa using hpos)
    simpa using this
  have hmB : (data.map chanB).sum / data.length ≤ 255 := by
    have := mean_le_255 (l := data.map chanB) (fun x hx => by
      obtain ⟨a, ha, rfl⟩ := List.mem_map.1 hx
      exact (hsh a ha).2.2.1) (by simpa using hpos)
    simpa using this
  obtain ⟨c, hc⟩ := selectChar_ok depth _ (toGrayscale_RGB_le F
    ((data.map chanR).sum / data.length) ((data.map chanG).sum / data.length)
    ((data.map chanB).sum / data.length))
  refine ⟨c, ?_, hc⟩
  unfold buildCell
  rw [hd]
  split
  · rename_i e heq; cases heq
  · rename_i data2 heq
    injection heq with heq
    subst heq
    rw [if_neg h0, if_pos rfl, hR, hG, hB,
      Nat.mod_eq_of_lt (by omega), Nat.mod_eq_of_lt (by omega),
      Nat.mod_eq_of_lt (by omega), hc]

theorem buildCell_gray_mean {F : ℕ → ℕ → ℕ → ℚ} {img : Image}
    {depth tw th tx ty : ℕ} {data : List RasciiColor}
    (hd : tileData F img false tw th tx ty = .ok data)
    (h0 : data.length ≠ 0) (hlen : data.length ≤ 2 ^ 48) :
    ∃ c, buildCell F img false depth tw th tx ty = .ok
        (c, .Grayscale ((data.map chanGray).sum / data.length)) ∧
      selectChar depth ((data.map chanGray).sum / data.length) = .ok c := by
  have hsh := tileData_shape hd
  have hGr : foldUsize chanGray data = (data.map chanGray).sum :=
    foldUsize_eq_sum (fun x hx => (hsh x hx).2.2.2.1) hlen
  have hpos : 0 < data.length := Nat.pos_of_ne_zero h0
  have hm : (data.map chanGray).sum / data.length ≤ 255 := by
    have := mean_le_255 (l := data.map chanGray) (fun x hx => by
      obtain ⟨a, ha, rfl⟩ := List.mem_map.1 hx
      exact (hsh a ha).2.2.2.1) (by simpa using hpos)
    simpa using this
  obtain ⟨c, hc⟩ := selectChar_ok depth ((data.map chanGray).sum / data.length) (by omega)
  refine ⟨c, ?_, hc⟩
  unfold buildCell
  rw [hd]
  split
  · rename_i e heq; cases heq
  · rename_i data2 heq
    injection heq with heq
    subst heq
    rw [if_neg h0, if_neg (by simp), hGr, Nat.mod_eq_of_lt (by omega)]
    simp only [chanGray]
    rw [hc]

theorem red10_scenario (F : ℕ → ℕ → ℕ → ℚ) (depth : ℕ) :
    ∃ c, runRascii F red10 (3, 3) true depth = .ok [[(c, .RGB 255 0 0)]] ∧
      selectChar depth (toGrayscale F (.RGB 255 0 0)) = .ok c := by
  have hdata : tileData F red10 true 3 3 1 1 = .ok (List.replicate 9 (.RGB 255 0 0)) := rfl
  obtain ⟨c, hcell, hsel⟩ := @buildCell_color_mean F red10 depth 3 3 1 1 _ hdata (by simp) (by norm_num)
  have eR : ((List.replicate 9 (RasciiColor.RGB 255 0 0)).map chanR).sum /
      (List.replicate 9 (RasciiColor.RGB 255 0 0)).length = 255 := by decide
  have eG : ((List.replicate 9 (RasciiColor.RGB 255 0 0)).map chanG).sum /
      (List.replicate 9 (RasciiColor.RGB 255 0 0)).length = 0 := by decide
  have eB : ((List.replicate 9 (RasciiColor.RGB 255 0 0)).map chanB).sum /
      (List.replicate 9 (RasciiColor.RGB 255 0 0)).length = 0 := by decide
  rw [eR, eG, eB] at hcell hsel
  refine ⟨c, ?_, hsel⟩
  rw [runRascii_eq F red10 3 3 true depth (by simp)]
  show mapE (fun ty => mapE (fun tx => buildCell F red10 true depth 3 3 tx ty) [1]) [1] =
    .ok [[(c, .RGB 255 0 0)]]
  simp only [mapE]
  rw [hcell]

/-! ### Claim theorems -/

/-- Claim C1, counterexample: on a 4×4 buffer with `cols = rows = 4` (which
satisfies `1 ≤ cols ≤ width` and `1 ≤ rows ≤ height`), the conversion returns
a grid of 2 rows, not the `rows = 4` rows the claim requires — the loops
`1..dim-1` skip the first and last tile row and column. -/
theorem c1_counterexample :
    Except.map List.length (runRascii Fzero img4 (4, 4) false 10) = .ok 2 ∧
    (2 : ℕ) ≠ 4 :=
  ⟨rfl, by decide⟩

/-- Claim C1 (amended): for every `GridSpec` with `cols, rows ≥ 1`,
`cols ≤ buffer.width` and `rows ≤ buffer.height`, the conversion succeeds and
produces exactly `(cols − 2) × (rows − 2)` tiles (hence that many output
cells) — the full `cols × rows` grid minus the trimmed border — and the tile
dimensions `tile_w = ⌊width/cols⌋` and `tile_h = ⌊height/rows⌋` are both ≥ 1. -/
theorem c1_grid_shape (F : ℕ → ℕ → ℕ → ℚ) (img : Image) (cols rows : ℕ)
    (color : Bool) (depth : ℕ) (hc1 : 1 ≤ cols) (hc2 : cols ≤ img.width)
    (hr1 : 1 ≤ rows) (hr2 : rows ≤ img.height) :
    1 ≤ img.width / cols ∧ 1 ≤ img.height / rows ∧
    ∃ out, runRascii F img (cols, rows) color depth = .ok out ∧
      out.length = rows - 2 ∧ ∀ row ∈ out, row.length = cols - 2 :=
  ⟨(Nat.one_le_div_iff (by omega)).2 hc2, (Nat.one_le_div_iff (by omega)).2 hr2,
    runRascii_ok_shape hc1 hc2 hr1 hr2⟩

/-- Witness for the amended C1 at the concrete input `red10`, `cols = rows = 4`. -/
theorem c1_witness :
    1 ≤ red10.width / 4 ∧ 1 ≤ red10.height / 4 ∧
    ∃ out, runRascii Fzero red10 (4, 4) true 70 = .ok out ∧
      out.length = 4 - 2 ∧ ∀ row ∈ out, row.length = 4 - 2 :=
  c1_grid_shape Fzero red10 4 4 true 70 (by decide) (by decide) (by decide) (by decide)

/-- Claim C2: at a grid finer than the source resolution (5×5 buffer,
`cols = rows = 10`, so `tile_w = tile_h = 0`), the conversion hits the integer
division `sum / tile_pixel_data.len()` with a zero divisor and panics; no
`InvalidGridSpec` error value exists anywhere in the program. -/
theorem c2_divide_by_zero :
    runRascii Fzero img5 (10, 10) false 70 = .error .divByZero :=
  rfl

/-- Claim C3, counterexample: at representative value 255 with `depth = 70`
the computed Ramp-70 index is 67, which exceeds the claimed clamp range
`[0,66]`; the returned character is the 68th ramp character `$`, not the
character `@` at index 66 that clamping would give — and the ramp has 68
characters, not 67. -/
theorem c3_counterexample :
    f64idx 255 67 = 67 ∧ ¬(f64idx 255 67 ≤ 66) ∧
    selectChar 70 255 = .ok '$' ∧ gscale70.get? 66 = some '@' ∧
    ('$' : Char) ≠ '@' ∧ gscale70.length = 68 ∧ gscale70.length ≠ 67 := by
  refine ⟨by decide, by decide, rfl, by decide, by decide, by decide, by decide⟩

/-- Claim C3 (amended): for every representative value `v ≤ 255` and every
depth, the mapper selects Ramp-10 exactly when `depth ≤ 10` and Ramp-70
exactly when `depth > 10`, and returns the ramp character at the unclamped
index `⌊(v/255)·9⌋` (which lies in `[0,9]`) resp. `⌊(v/255)·67⌋` (which lies
in `[0,67]`, reaching 67 at `v = 255`); no clamp is applied and none is needed
for in-bounds access because Ramp-70 has 68 characters. -/
theorem c3_ramp_dispatch (depth v : ℕ) (hv : v ≤ 255) :
    (depth ≤ 10 → v * 9 / 255 ≤ 9 ∧
      ∃ c, GSCALE_10.get? (v * 9 / 255) = some c ∧ selectChar depth v = .ok c) ∧
    (10 < depth → v * 67 / 255 ≤ 67 ∧
      ∃ c, gscale70.get? (v * 67 / 255) = some c ∧ selectChar depth v = .ok c) := by
  have h9 : f64idx v 9 = v * 9 / 255 := f64idx_mul9 v (by omega)
  have h67 : f64idx v 67 = v * 67 / 255 := f64idx_mul67 v (by omega)
  constructor
  · intro hd
    refine ⟨by omega, ?_⟩
    have hlt : v * 9 / 255 < GSCALE_10.length := by
      rw [show GSCALE_10.length = 10 from rfl]
      omega
    refine ⟨GSCALE_10.get ⟨v * 9 / 255, hlt⟩, List.get?_eq_get hlt, ?_⟩
    unfold selectChar
    rw [if_neg (by omega), h9, List.get?_eq_get hlt]
  · intro hd
    refine ⟨by omega, ?_⟩
    have hlt : v * 67 / 255 < gscale70.length := by
      rw [gscale70_length]
      omega
    refine ⟨gscale70.get ⟨v * 67 / 255, hlt⟩, List.get?_eq_get hlt, ?_⟩
    unfold selectChar
    rw [if_pos (by omega), h67, List.get?_eq_get hlt]

/-- Witness for the amended C3 at the concrete representative value 100. -/
theorem c3_witness :
    ((5 : ℕ) ≤ 10 → 100 * 9 / 255 ≤ 9 ∧
      ∃ c, GSCALE_10.get? (100 * 9 / 255) = some c ∧ selectChar 5 100 = .ok c) ∧
    (10 < (5 : ℕ) → 100 * 67 / 255 ≤ 67 ∧
      ∃ c, gscale70.get? (100 * 67 / 255) = some c ∧ selectChar 5 100 = .ok c) :=
  c3_ramp_dispatch 5 100 (by decide)

/-- Claim C4: the lightness of every RGB triple is clamped into `[0,255]`
before truncation (the Rust `as u8` float cast saturates), and under the IEEE
facts about the underlying float expression — `powf(0, γ) = 0` makes the
whole expression exactly `116·0 − 16 = −16` on black, and on white the
expression value (≈ 6735) is at least 255 — black maps to 0 and white to 255. -/
theorem c4_lightness_range (F : ℕ → ℕ → ℕ → ℚ) (r g b : ℕ)
    (h0 : F 0 0 0 = -16) (hw : (255 : ℚ) ≤ F 255 255 255) :
    toGrayscale F (.RGB r g b) ≤ 255 ∧
    toGrayscale F (.RGB 0 0 0) = 0 ∧
    toGrayscale F (.RGB 255 255 255) = 255 := by
  refine ⟨toGrayscale_RGB_le F r g b, ?_, ?_⟩
  · show f64toU8 (F 0 0 0) = 0
    rw [h0]
    unfold f64toU8
    rw [if_pos (by norm_num)]
  · show f64toU8 (F 255 255 255) = 255
    unfold f64toU8
    rw [if_neg (by intro hle; linarith), if_pos hw]

/-- Witness for C4 with a concrete float-expression model satisfying both
IEEE facts. -/
theorem c4_witness :
    toGrayscale (fun r _ _ => if r = 0 then (-16 : ℚ) else 7000) (.RGB 10 20 30) ≤ 255 ∧
    toGrayscale (fun r _ _ => if r = 0 then (-16 : ℚ) else 7000) (.RGB 0 0 0) = 0 ∧
    toGrayscale (fun r _ _ => if r = 0 then (-16 : ℚ) else 7000) (.RGB 255 255 255) = 255 :=
  c4_lightness_range (fun r _ _ => if r = 0 then (-16 : ℚ) else 7000) 10 20 30
    (by norm_num) (by norm_num)

/-- Claim C5, counterexample: on a uniform solid-red 10×10 buffer with a 1×1
grid in color mode the conversion returns an empty grid (the border-trimming
loops `1..dim-1` are empty), so no averaged color `(255,0,0)` is produced —
the claimed 1×1 scenario has no cell at all. -/
theorem c5_counterexample :
    Except.map List.length (runRascii Fzero red10 (1, 1) true 70) = .ok 0 ∧
    (0 : ℕ) ≠ 1 :=
  ⟨rfl, by decide⟩

/-- Claim C5 (amended): in color mode the character of a tile is selected from
the lightness of the channel-averaged RGB triple, while in grayscale mode it
is selected from the mean of the per-pixel lightness values; and on a uniform
solid-red 10×10 buffer with a 3×3 grid (the smallest grid that yields a cell
after border trimming) the single cell's averaged color is exactly `(255,0,0)`
and its character comes from the lightness of exactly that triple. -/
theorem c5_aggregation_order (F : ℕ → ℕ → ℕ → ℚ) (img : Image)
    (depth tw th tx ty : ℕ) (cdata gdata : List RasciiColor)
    (hc : tileData F img true tw th tx ty = .ok cdata)
    (hc0 : cdata.length ≠ 0) (hcb : cdata.length ≤ 2 ^ 48)
    (hg : tileData F img false tw th tx ty = .ok gdata)
    (hg0 : gdata.length ≠ 0) (hgb : gdata.length ≤ 2 ^ 48) :
    (∃ c, buildCell F img true depth tw th tx ty = .ok (c, .RGB
        ((cdata.map chanR).sum / cdata.length) ((cdata.map chanG).sum / cdata.length)
        ((cdata.map chanB).sum / cdata.length)) ∧
      selectChar depth (toGrayscale F (.RGB
        ((cdata.map chanR).sum / cdata.length) ((cdata.map chanG).sum / cdata.length)
        ((cdata.map chanB).sum / cdata.length))) = .ok c) ∧
    (∃ c, buildCell F img false depth tw th tx ty = .ok
        (c, .Grayscale ((gdata.map chanGray).sum / gdata.length)) ∧
      selectChar depth ((gdata.map chanGray).sum / gdata.length) = .ok c) ∧
    (∃ c, runRascii F red10 (3, 3) true depth = .ok [[(c, .RGB 255 0 0)]] ∧
      selectChar depth (toGrayscale F (.RGB 255 0 0)) = .ok c) :=
  ⟨buildCell_color_mean hc hc0 hcb, buildCell_gray_mean hg hg0 hgb,
    red10_scenario F depth⟩

/-- Witness for the amended C5 at the concrete red 10×10 buffer, tile (1,1) of
the 3×3 grid. -/
theorem c5_witness :
    (∃ c, buildCell Fzero red10 true 70 3 3 1 1 = .ok (c, .RGB
        (((List.replicate 9 (RasciiColor.RGB 255 0 0)).map chanR).sum /
          (List.replicate 9 (RasciiColor.RGB 255 0 0)).length)
        (((List.replicate 9 (RasciiColor.RGB 255 0 0)).map chanG).sum /
          (List.replicate 9 (RasciiColor.RGB 255 0 0)).length)
        (((List.replicate 9 (RasciiColor.RGB 255 0 0)).map chanB).sum /
          (List.replicate 9 (RasciiColor.RGB 255 0 0)).length)) ∧
      selectChar 70 (toGrayscale Fzero (.RGB
        (((List.replicate 9 (RasciiColor.RGB 255 0 0)).map chanR).sum /
          (List.replicate 9 (RasciiColor.RGB 255 0 0)).length)
        (((List.replicate 9 (RasciiColor.RGB 255 0 0)).map chanG).sum /
          (List.replicate 9 (RasciiColor.RGB 255 0 0)).length)
        (((List.replicate 9 (RasciiColor.RGB 255 0 0)).map chanB).sum /
          (List.replicate 9 (RasciiColor.RGB 255 0 0)).length))) = .ok c) ∧
    (∃ c, buildCell Fzero red10 false 70 3 3 1 1 = .ok
        (c, .Grayscale (((List.replicate 9 (RasciiColor.Grayscale 0)).map chanGray).sum /
          (List.replicate 9 (RasciiColor.Grayscale 0)).length)) ∧
      selectChar 70 (((List.replicate 9 (RasciiColor.Grayscale 0)).map chanGray).sum /
        (List.replicate 9 (RasciiColor.Grayscale 0)).length) = .ok c) ∧
    (∃ c, runRascii Fzero red10 (3, 3) true 70 = .ok [[(c, .RGB 255 0 0)]] ∧
      selectChar 70 (toGrayscale Fzero (.RGB 255 0 0)) = .ok c) :=
  c5_aggregation_order Fzero red10 70 3 3 1 1
    (List.replicate 9 (RasciiColor.RGB 255 0 0))
    (List.replicate 9 (RasciiColor.Grayscale 0))
    rfl (by decide) (by norm_num) rfl (by decide) (by norm_num)

/-- Claim C6: for every non-empty list of tile samples (of realistic size,
at most `2^48` samples), the wrapping 64-bit `usize` accumulation computes the
exact channel sum — no overflow occurs — and the value the aggregator stores
(the quotient `sum / count` cast `as u8`) is exactly the integer-truncated
arithmetic mean `⌊sum / count⌋`, per channel in color mode and on the
lightness scalar in grayscale mode. -/
theorem c6_aggregator_mean (F : ℕ → ℕ → ℕ → ℚ) (img : Image) (color : Bool)
    (tw th tx ty : ℕ) (data : List RasciiColor)
    (hd : tileData F img color tw th tx ty = .ok data)
    (h0 : data.length ≠ 0) (hlen : data.length ≤ 2 ^ 48) :
    foldUsize chanR data = (data.map chanR).sum ∧
    foldUsize chanG data = (data.map chanG).sum ∧
    foldUsize chanB data = (data.map chanB).sum ∧
    foldUsize chanGray data = (data.map chanGray).sum ∧
    foldUsize chanR data / data.length % 256 = (data.map chanR).sum / data.length ∧
    foldUsize chanG data / data.length % 256 = (data.map chanG).sum / data.length ∧
    foldUsize chanB data / data.length % 256 = (data.map chanB).sum / data.length ∧
    foldUsize chanGray data / data.length % 256 = (data.map chanGray).sum / data.length := by
  have hsh := tileData_shape hd
  have hpos : 0 < data.length := Nat.pos_of_ne_zero h0
  have hR : foldUsize chanR data = (data.map chanR).sum :=
    foldUsize_eq_sum (fun x hx => (hsh x hx).1) hlen
  have hG : foldUsize chanG data = (data.map chanG).sum :=
    foldUsize_eq_sum (fun x hx => (hsh x hx).2.1) hlen
  have hB : foldUsize chanB data = (data.map chanB).sum :=
    foldUsize_eq_sum (fun x hx => (hsh x hx).2.2.1) hlen
  have hGr : foldUsize chanGray data = (data.map chanGray).sum :=
    foldUsize_eq_sum (fun x hx => (hsh x hx).2.2.2.1) hlen
  have hmR : (data.map chanR).sum / data.length ≤ 255 := by
    have := mean_le_255 (l := data.map chanR) (fun x hx => by
      obtain ⟨a, ha, rfl⟩ := List.mem_map.1 hx
      exact (hsh a ha).1) (by simpa using hpos)
    simpa using this
  have hmG : (data.map chanG).sum / data.length ≤ 255 := by
    have := mean_le_255 (l := data.map chanG) (fun x hx => by
      obtain ⟨a, ha, rfl⟩ := List.mem_map.1 hx
      exact (hsh a ha).2.1) (by simpa using hpos)
    simpa using this
  have hmB : (data.map chanB).sum / data.length ≤ 255 := by
    have := mean_le_255 (l := data.map chanB) (fun x hx => by
      obtain ⟨a, ha, rfl⟩ := List.mem_map.1 hx
      exact (hsh a ha).2.2.1) (by simpa using hpos)
    simpa using this
  have hmGr : (data.map chanGray).sum / data.length ≤ 255 := by
    have := mean_le_255 (l := data.map chanGray) (fun x hx => by
      obtain ⟨a, ha, rfl⟩ := List.mem_map.1 hx
      exact (hsh a ha).2.2.2.1) (by simpa using hpos)
    simpa using this
  refine ⟨hR, hG, hB, hGr, ?_, ?_, ?_, ?_⟩
  · rw [hR, Nat.mod_eq_of_lt (by omega)]
  · rw [hG, Nat.mod_eq_of_lt (by omega)]
  · rw [hB, Nat.mod_eq_of_lt (by omega)]
  · rw [hGr, Nat.mod_eq_of_lt (by omega)]

/-- Witness for C6 at the concrete red 10×10 buffer, tile (1,1) of the 3×3
grid, color mode. -/
theorem c6_witness :
    foldUsize chanR (List.replicate 9 (RasciiColor.RGB 255 0 0)) =
      ((List.replicate 9 (RasciiColor.RGB 255 0 0)).map chanR).sum ∧
    foldUsize chanG (List.replicate 9 (RasciiColor.RGB 255 0 0)) =
      ((List.replicate 9 (RasciiColor.RGB 255 0 0)).map chanG).sum ∧
    foldUsize chanB (List.replicate 9 (RasciiColor.RGB 255 0 0)) =
      ((List.replicate 9 (RasciiColor.RGB 255 0 0)).map chanB).sum ∧
    foldUsize chanGray (List.replicate 9 (RasciiColor.RGB 255 0 0)) =
      ((List.replicate 9 (RasciiColor.RGB 255 0 0)).map chanGray).sum ∧
    foldUsize chanR (List.replicate 9 (RasciiColor.RGB 255 0 0)) /
        (List.replicate 9 (RasciiColor.RGB 255 0 0)).length % 256 =
      ((List.replicate 9 (RasciiColor.RGB 255 0 0)).map chanR).sum /
        (List.replicate 9 (RasciiColor.RGB 255 0 0)).length ∧
    foldUsize chanG (List.replicate 9 (RasciiColor.RGB 255 0 0)) /
        (List.replicate 9 (RasciiColor.RGB 255 0 0)).length % 256 =
      ((List.replicate 9 (RasciiColor.RGB 255 0 0)).map chanG).sum /
        (List.replicate 9 (RasciiColor.RGB 255 0 0)).length ∧
    foldUsize chanB (List.replicate 9 (RasciiColor.RGB 255 0 0)) /
        (List.replicate 9 (RasciiColor.RGB 255 0 0)).length % 256 =
      ((List.replicate 9 (RasciiColor.RGB 255 0 0)).map chanB).sum /
        (List.replicate 9 (RasciiColor.RGB 255 0 0)).length ∧
    foldUsize chanGray (List.replicate 9 (RasciiColor.RGB 255 0 0)) /
        (List.replicate 9 (RasciiColor.RGB 255 0 0)).length % 256 =
      ((List.replicate 9 (RasciiColor.RGB 255 0 0)).map chanGray).sum /
        (List.replicate 9 (RasciiColor.RGB 255 0 0)).length :=
  c6_aggregator_mean Fzero red10 true 3 3 1 1
    (List.replicate 9 (RasciiColor.RGB 255 0 0)) rfl (by decide) (by norm_num)

/-- Claim C7: for every depth and all representative values `v1 ≤ v2 ≤ 255`,
the ramp index the character mapper computes (the `f64` index with multiplier
9 for `depth ≤ 10`, with 67 for `depth > 10`) is monotone: the index at `v1`
never exceeds the index at `v2`. -/
theorem c7_monotone (depth v1 v2 : ℕ) (h12 : v1 ≤ v2) (h2 : v2 ≤ 255) :
    (depth ≤ 10 → f64idx v1 9 ≤ f64idx v2 9) ∧
    (10 < depth → f64idx v1 67 ≤ f64idx v2 67) := by
  have e1 : f64idx v1 9 = v1 * 9 / 255 := f64idx_mul9 v1 (by omega)
  have e2 : f64idx v2 9 = v2 * 9 / 255 := f64idx_mul9 v2 (by omega)
  have e3 : f64idx v1 67 = v1 * 67 / 255 := f64idx_mul67 v1 (by omega)
  have e4 : f64idx v2 67 = v2 * 67 / 255 := f64idx_mul67 v2 (by omega)
  constructor
  · intro _
    rw [e1, e2]
    exact Nat.div_le_div_right (Nat.mul_le_mul_right _ h12)
  · intro _
    rw [e3, e4]
    exact Nat.div_le_div_right (Nat.mul_le_mul_right _ h12)

/-- Witness for C7 at `depth = 70`, `v1 = 10`, `v2 = 200`. -/
theorem c7_witness :
    ((70 : ℕ) ≤ 10 → f64idx 10 9 ≤ f64idx 200 9) ∧
    (10 < (70 : ℕ) → f64idx 10 67 ≤ f64idx 200 67) :=
  c7_monotone 70 10 200 (by decide) (by decide)

/-- Claim C8: `run` is deterministic and stateless — running it a second time
on the state returned by the first call yields a bit-identical output (and the
same final state), because the body of `run` assigns no field of `self`. -/
theorem c8_idempotent (F : ℕ → ℕ → ℕ → ℚ) (s : Rascii) :
    (runR F ((runR F s).2)).1 = (runR F s).1 ∧
    (runR F ((runR F s).2)).2 = (runR F s).2 :=
  ⟨rfl, rfl⟩

/-- Claim C9: `run` never mutates its inputs — the state after a call has the
same pixel buffer, dimensions, color flag, depth and braille flag as before. -/
theorem c9_frame (F : ℕ → ℕ → ℕ → ℚ) (s : Rascii) :
    (runR F s).2.image = s.image ∧ (runR F s).2.dim = s.dim ∧
    (runR F s).2.color = s.color ∧ (runR F s).2.depth = s.depth ∧
    (runR F s).2.braille = s.braille :=
  ⟨rfl, rfl, rfl, rfl, rfl⟩

/-- Claim C10: every grid the conversion returns is rectangular — all rows
have length `cols − 2` — and in each cell the color variant matches the active
mode (an RGB triple in color mode, a grayscale scalar in grayscale mode) while
the character is drawn from the depth-selected ramp. -/
theorem c10_invariants (F : ℕ → ℕ → ℕ → ℚ) (img : Image) (cols rows : ℕ)
    (color : Bool) (depth : ℕ) (out : RasciiOutput)
    (h : runRascii F img (cols, rows) color depth = .ok out) :
    (∀ row ∈ out, row.length = cols - 2) ∧
    (∀ row ∈ out, ∀ cell ∈ row,
      (color = true → ∃ r g b, cell.2 = RasciiColor.RGB r g b) ∧
      (color = false → ∃ l, cell.2 = RasciiColor.Grayscale l) ∧
      cell.1 ∈ (if 10 < depth then gscale70 else GSCALE_10)) := by
  by_cases hz : cols = 0 ∨ rows = 0
  · exfalso
    unfold runRascii at h
    rw [if_pos (show (cols, rows).1 = 0 ∨ (cols, rows).2 = 0 by simpa using hz)] at h
    cases h
  · rw [runRascii_eq F img cols rows color depth (by simpa using hz)] at h
    constructor
    · intro row hrow
      obtain ⟨ty, _, hrow_eq⟩ := mapE_mem _ h row hrow
      rw [mapE_length _ hrow_eq, List.length_range']
      omega
    · intro row hrow cell hcell
      obtain ⟨ty, _, hrow_eq⟩ := mapE_mem _ h row hrow
      obtain ⟨tx, _, hcell_eq⟩ := mapE_mem _ hrow_eq cell hcell
      obtain ⟨c, avg⟩ := cell
      obtain ⟨h1, h2, h3⟩ := buildCell_inv hcell_eq
      refine ⟨fun hcol => ?_, fun hcol => ?_, h3⟩
      · obtain ⟨r, g, b, he, _⟩ := h1 hcol
        exact ⟨r, g, b, he⟩
      · obtain ⟨l, he, _⟩ := h2 hcol
        exact ⟨l, he⟩

/-- Witness for C10 at the concrete red 10×10 buffer, 3×3 grid, color mode. -/
theorem c10_witness :
    (∀ row ∈ [[((' ' : Char), RasciiColor.RGB 255 0 0)]], row.length = 3 - 2) ∧
    (∀ row ∈ [[((' ' : Char), RasciiColor.RGB 255 0 0)]], ∀ cell ∈ row,
      (true = true → ∃ r g b, cell.2 = RasciiColor.RGB r g b) ∧
      (true = false → ∃ l, cell.2 = RasciiColor.Grayscale l) ∧
      cell.1 ∈ (if 10 < 70 then gscale70 else GSCALE_10)) :=
  c10_invariants Fzero red10 3 3 true 70 [[(' ', .RGB 255 0 0)]] rfl
